import Mathlib

/-!
# Verification model of `traitsui/editors/tuple_editor.py`

This file gives a shallow embedding of the tuple-editor module and proves
properties of its behaviour.  The Python module builds, for a tuple value of
length `n`, a `TupleStructure` object that carries dynamic traits
`f0 .. f(n-1)` mirroring the tuple fields, optional boolean traits
`invalid0 .. invalid(n-1)` (added exactly when a validation function is
configured), and a generated layout `View`.  Edits to a field trait run
`TupleStructure._field_changed`, which recomputes the candidate tuple and
either commits it to the owning editor or marks the edited field invalid;
external changes of the owning value run `SimpleEditor.update_editor`, which
overwrites every field and clears the invalid flags.

The embedding represents the dynamic traits as lists: `field_values` holds
`f0 .. f(n-1)` and `invalid` holds `invalid0 .. invalid(n-1)` (empty when no
validation function is configured).  The `fields` count stored on the Python
object equals the length of `field_values` by construction, so loops over
`range(self.fields)` are rendered as loops over the length of that list.
-/

namespace TupleEditor

/-- Joint state of a `TupleStructure` and its owning editor.

* `editor_value` is `editor.value`, the owning tuple;
* `field_values` holds the dynamic field traits `f0 .. f(n-1)`;
* `invalid` holds the dynamic flags `invalid0 .. invalid(n-1)`
  (empty when no validation function is configured, since
  `TupleStructure.__init__` only adds them under `if validation is not None`). -/
structure TupleState (V : Type) where
  editor_value : List V
  field_values : List V
  invalid : List Bool
deriving DecidableEq, Repr

/-- The loop `for i in range(fields): setattr(self, 'invalid{0}'.format(i), False)`
executed on successful validation in `TupleStructure._field_changed`. -/
def clear_invalid_loop (fields : Nat) (iv : List Bool) : List Bool :=
  (List.range fields).foldl (fun l i => l.set i false) iv

/-- `TupleStructure._field_changed(self, name, old, new)` together with the
trait assignment that triggered it.  The field trait `f{index}` has already
been set to `new` when the handler runs, so the state first records
`field_values.set index new`; the handler then reads `value = editor.value`,
compares `new != value[index]`, and on a genuine difference recomputes the
candidate tuple from all current field traits and either commits it
(validation absent or passing, clearing every invalid flag) or sets
`invalid{index}` (validation failing).  The lookup `value[index]` raises
`IndexError` outside the tuple's range, modelled by `none`. -/
def field_changed {V : Type} [DecidableEq V] (validation : Option (List V → Bool))
    (s : TupleState V) (index : Nat) (new : V) : Option (TupleState V) :=
  let s1 : TupleState V := { s with field_values := s.field_values.set index new }
  match s.editor_value[index]? with
  | none => none
  | some vi =>
    if new = vi then
      some s1
    else
      let new_value := s1.field_values
      match validation with
      | some valid =>
        if valid new_value then
          some { s1 with
                 editor_value := new_value
                 invalid := clear_invalid_loop s1.field_values.length s1.invalid }
        else
          some { s1 with invalid := s1.invalid.set index true }
      | none => some { s1 with editor_value := new_value }

/-- The body of the loop in `SimpleEditor.update_editor`:
`for i, value in enumerate(self.value): setattr(ts, 'f{0}'.format(i), value);
if ts.validation is not None: setattr(ts, 'invalid{0}'.format(i), False)`,
with the running index made explicit.  (Each `setattr` on a field trait does
re-enter `_field_changed`, but there `new == editor.value[i]`, so the guard
`if new != value[index]` discards the event and only the assignment itself
remains; the loop is therefore rendered by the assignments alone.) -/
def update_fields_loop {V : Type} (validation : Option (List V → Bool)) :
    Nat → List V → List V × List Bool → List V × List Bool
  | _, [], st => st
  | i, v :: rest, (fv, iv) =>
    let fv1 := fv.set i v
    let iv1 := if validation.isSome then iv.set i false else iv
    update_fields_loop validation (i + 1) rest (fv1, iv1)

/-- `SimpleEditor.update_editor`, run when the owning object's trait changes
external to the editor: every field trait is overwritten with the new tuple's
positional value and, when a validation function is configured, every invalid
flag is reset to `False`. -/
def update_editor {V : Type} (validation : Option (List V → Bool))
    (s : TupleState V) : TupleState V :=
  let st := update_fields_loop validation 0 s.editor_value (s.field_values, s.invalid)
  { s with field_values := st.1, invalid := st.2 }

/-- The state of a freshly constructed `TupleStructure`: the loop in
`TupleStructure.__init__` adds one field trait per tuple position holding the
position's current value, and (when a validation function is configured) one
`Bool` trait per position, whose default value is `False`. -/
def init_state {V : Type} (validation : Option (List V → Bool))
    (object : List V) : TupleState V :=
  { editor_value := object
    field_values := object
    invalid := if validation.isSome then List.replicate object.length false else [] }

/-- Resolution of the structure's validation function in
`TupleStructure.__init__`:
`if hasattr(type, 'validation') and validation is None:
    self.validation = validation = type.validation`
where `type = editor.value_trait.handler`.  The outer `Option` of
`handler_validation` models `hasattr` (a handler without the attribute is
`none`), the inner one the attribute's value (which may itself be `None`). -/
def resolve_validation {F : Type} (validation : Option F)
    (handler_validation : Option (Option F)) : Option F :=
  match handler_validation, validation with
  | some hv, none => hv
  | _, some v => some v
  | none, none => none

/-- The Python value of `factory.types`: `None`, a single (non-sequence)
type, or a sequence of types. -/
inductive TypesSpec (T : Type) where
  | pynone : TypesSpec T
  | atom : T → TypesSpec T
  | seq : List T → TypesSpec T
deriving DecidableEq, Repr

/-- Resolution of the per-field type list in `TupleStructure.__init__`:

```
if types is None:
    if isinstance(type, BaseTuple):
        types = type.types
if not isinstance(types, SequenceTypes):
    types = [types]
len_types = len(types)
if len_types == 0:
    types = [Any]
    len_types = 1
```

`handler_tuple_types` is `some type.types` when the edited trait's handler is
a `BaseTuple` and `none` otherwise; `anyType` stands for the `Any` trait.
Elements of the result are `Option T`, with `none` standing for the Python
value `None` (which survives the wrapping `types = [types]` when neither a
configuration nor handler types are available). -/
def resolve_types {T : Type} (types : TypesSpec T)
    (handler_tuple_types : Option (List T)) (anyType : T) : List (Option T) :=
  let types1 : TypesSpec T :=
    match types with
    | TypesSpec.pynone =>
      match handler_tuple_types with
      | some ts => TypesSpec.seq ts
      | none => TypesSpec.pynone
    | t => t
  let tlist : List (Option T) :=
    match types1 with
    | TypesSpec.pynone => [none]
    | TypesSpec.atom t => [some t]
    | TypesSpec.seq ts => ts.map some
  if tlist.length = 0 then [some anyType] else tlist

/-- The per-position type selection `type = types[i % len_types]` in the
construction loop (the resolved list is never empty, so the default of
`getD` is never consulted on the real code path). -/
def field_type {T : Type} (types : List (Option T)) (i : Nat) : Option T :=
  types.getD (i % types.length) none

/-- The aspects of a Python type value consulted by the construction loop:
whether it is a `TraitType` instance, and its `auto_set` / `enter_set`
metadata (only read under `isinstance(type, TraitType)`; a value of `none`
models unset metadata, i.e. the Python value `None`). -/
structure FieldType where
  is_trait_type : Bool
  auto_set : Option Bool
  enter_set : Option Bool
deriving DecidableEq, Repr

/-- The per-field construction outcome relevant to commit behaviour: the
effective `auto_set` / `enter_set` flags passed to the field trait, and
whether a paired `invalid` flag trait was added. -/
structure FieldSpec where
  auto_set : Bool
  enter_set : Bool
  has_invalid : Bool
deriving DecidableEq, Repr

/-- The flag-and-invalid part of the construction loop body in
`TupleStructure.__init__`:

```
auto_set = enter_set = None
if isinstance(type, TraitType):
    auto_set = type.auto_set
    enter_set = type.enter_set
if auto_set is None:
    auto_set = editor.factory.auto_set
if enter_set is None:
    enter_set = editor.factory.enter_set
...
if validation is not None:
    invalid = 'invalid{0}'.format(i)
    self.add_trait(invalid, Bool)
else:
    invalid = ''
``` -/
def make_field {F : Type} (t : FieldType) (factory_auto_set factory_enter_set : Bool)
    (validation : Option F) : FieldSpec :=
  let a0 : Option Bool := none
  let e0 : Option Bool := none
  let a1 := if t.is_trait_type then t.auto_set else a0
  let e1 := if t.is_trait_type then t.enter_set else e0
  let a2 := match a1 with
    | none => factory_auto_set
    | some b => b
  let e2 := match e1 with
    | none => factory_enter_set
    | some b => b
  { auto_set := a2, enter_set := e2, has_invalid := validation.isSome }

/-- One entry of the generated layout `content` list: a bare `Item`
(single-column layout) or a horizontal `Group` of items (multi-column
layout).  Items are identified by their field index. -/
inductive LayoutEntry where
  | item : Nat → LayoutEntry
  | group : List Nat → LayoutEntry
deriving DecidableEq, Repr

/-- `group.content.append(item)`: the `group` variable in the construction
loop always aliases the last element of `content` (a `Group` appended when
`i % cols == 0`), so appending to it appends to the last group of the list. -/
def append_to_last_group : List LayoutEntry → Nat → List LayoutEntry
  | [], _ => []
  | [e], i =>
    match e with
    | LayoutEntry.group g => [LayoutEntry.group (g ++ [i])]
    | LayoutEntry.item j => [LayoutEntry.item j]
  | e :: e2 :: rest, i => e :: append_to_last_group (e2 :: rest) i

/-- The layout part of the construction loop body for field `i`:

```
if cols <= 1:
    content.append(item)
else:
    if (i % cols) == 0:
        group = Group(orientation='horizontal')
        content.append(group)
    group.content.append(item)
```

`cols` is a Python `int`, so the comparison `cols <= 1` is over `Int`; in the
`else` branch `cols >= 2`, and `i % cols` is ordinary modulus of naturals. -/
def layout_step (cols : Int) (content : List LayoutEntry) (i : Nat) : List LayoutEntry :=
  if cols ≤ 1 then content ++ [LayoutEntry.item i]
  else
    let content1 := if i % cols.toNat = 0 then content ++ [LayoutEntry.group []] else content
    append_to_last_group content1 i

/-- The `content` list built by running the construction loop over fields
`0 .. n-1` (the loop `for i, value in enumerate(object)` with the layout
part of its body). -/
def build_content (cols : Int) : Nat → List LayoutEntry
  | 0 => []
  | n + 1 => layout_step cols (build_content cols n) n

/-- Number of field items carried by one layout entry. -/
def entry_items : LayoutEntry → Nat
  | LayoutEntry.item _ => 1
  | LayoutEntry.group g => g.length

/-- Total number of field items in the generated layout. -/
def num_items (content : List LayoutEntry) : Nat :=
  (content.map entry_items).sum

/-- Well-formedness tying the dynamic trait lists to the construction:
`field_values` has one entry per tuple position, and `invalid` has one entry
per position exactly when a validation function is configured. -/
def wf {V : Type} (validation : Option (List V → Bool)) (s : TupleState V) : Prop :=
  s.field_values.length = s.editor_value.length ∧
  s.invalid.length = (if validation.isSome then s.field_values.length else 0)

/-- Reachability invariant of the editor: a field whose invalid flag is clear
agrees with the owning tuple at its position.  It holds after construction
and is preserved by every edit and every external update. -/
def flag_inv {V : Type} (s : TupleState V) : Prop :=
  ∀ i : Nat, s.invalid[i]? = some false → s.field_values[i]? = s.editor_value[i]?

/-- A concrete validation function used for concrete evaluations: it accepts
exactly the tuple `(1, 2)`. -/
def acceptsOneTwo : List Nat → Bool := fun l => l == [1, 2]

section ListHelpers

variable {α : Type}

lemma set_eq_of_getElem? (l : List α) (i : Nat) (a : α)
    (h : l[i]? = some a) : l.set i a = l := by
  induction l generalizing i with
  | nil => simp [List.set]
  | cons x xs ih =>
    cases i with
    | zero =>
      simp only [List.getElem?_cons_zero, Option.some.injEq] at h
      simp [h]
    | succ n =>
      simp only [List.getElem?_cons_succ] at h
      simp [ih n h]

lemma take_set_succ (l : List α) (k : Nat) (v : α) (h : k < l.length) :
    (l.set k v).take (k + 1) = l.take k ++ [v] := by
  induction l generalizing k with
  | nil => simp at h
  | cons x xs ih =>
    cases k with
    | zero => simp
    | succ n =>
      simp only [List.length_cons] at h
      simp [List.set, List.take_succ_cons, ih n (by omega)]

end ListHelpers

section ClearLoop

lemma clear_invalid_loop_succ (n : Nat) (iv : List Bool) :
    clear_invalid_loop (n + 1) iv = (clear_invalid_loop n iv).set n false := by
  unfold clear_invalid_loop
  rw [List.range_succ, List.foldl_append]
  rfl

lemma clear_invalid_loop_length (n : Nat) (iv : List Bool) :
    (clear_invalid_loop n iv).length = iv.length := by
  induction n with
  | zero => rfl
  | succ n ih => rw [clear_invalid_loop_succ, List.length_set, ih]

lemma clear_invalid_loop_getElem (n : Nat) (iv : List Bool) (j : Nat) :
    (clear_invalid_loop n iv)[j]? =
      if j < n then (if j < iv.length then some false else none) else iv[j]? := by
  induction n with
  | zero => simp [clear_invalid_loop]
  | succ n ih =>
    rw [clear_invalid_loop_succ, List.getElem?_set, clear_invalid_loop_length]
    by_cases h : n = j
    · subst h
      simp [ih]
    · rw [if_neg h, ih]
      by_cases hj : j < n
      · rw [if_pos (show j < n + 1 by omega), if_pos hj]
      · rw [if_neg hj, if_neg (show ¬j < n + 1 by omega)]

lemma clear_invalid_loop_eq_replicate (n : Nat) (iv : List Bool)
    (h : iv.length = n) : clear_invalid_loop n iv = List.replicate n false := by
  apply List.ext_getElem?
  intro j
  rw [clear_invalid_loop_getElem, h]
  by_cases hj : j < n
  · simp [hj, List.getElem?_replicate]
  · have hnone : iv[j]? = none := List.getElem?_eq_none (by omega)
    simp [hj, hnone, List.getElem?_replicate]

end ClearLoop

section UpdateLoop

variable {V : Type}

lemma update_fields_loop_fst (vo : Option (List V → Bool)) (vals : List V) :
    ∀ (k : Nat) (fv : List V) (iv : List Bool), fv.length = k + vals.length →
      (update_fields_loop vo k vals (fv, iv)).1 = fv.take k ++ vals := by
  induction vals with
  | nil =>
    intro k fv iv h
    simp only [List.length_nil, Nat.add_zero] at h
    simp [update_fields_loop, List.take_of_length_le (le_of_eq h)]
  | cons v rest ih =>
    intro k fv iv h
    simp only [List.length_cons] at h
    have h1 : (fv.set k v).length = (k + 1) + rest.length := by
      rw [List.length_set]; omega
    rw [update_fields_loop, ih (k + 1) _ _ h1,
        take_set_succ fv k v (by omega), List.append_assoc, List.singleton_append]

lemma update_fields_loop_snd (valid : List V → Bool) (vals : List V) :
    ∀ (k : Nat) (fv : List V) (iv : List Bool), iv.length = k + vals.length →
      (update_fields_loop (some valid) k vals (fv, iv)).2 =
        iv.take k ++ List.replicate vals.length false := by
  induction vals with
  | nil =>
    intro k fv iv h
    simp only [List.length_nil, Nat.add_zero] at h
    simp [update_fields_loop, List.take_of_length_le (le_of_eq h)]
  | cons v rest ih =>
    intro k fv iv h
    simp only [List.length_cons] at h
    have h1 : (iv.set k false).length = (k + 1) + rest.length := by
      rw [List.length_set]; omega
    rw [update_fields_loop]
    simp only [Option.isSome_some, if_pos]
    rw [ih (k + 1) _ _ h1, take_set_succ iv k false (by omega),
        List.append_assoc, List.singleton_append]
    simp [List.replicate_succ]

lemma update_fields_loop_snd_none (vals : List V) :
    ∀ (k : Nat) (fv : List V) (iv : List Bool),
      (update_fields_loop (none : Option (List V → Bool)) k vals (fv, iv)).2 = iv := by
  induction vals with
  | nil => intro k fv iv; rfl
  | cons v rest ih =>
    intro k fv iv
    simp [update_fields_loop, ih]

/-- Complete description of `SimpleEditor.update_editor` on a well-formed
state: the owning value is untouched, every field is overwritten positionally
from it, and the invalid flags (all of them, when present) become `False`. -/
lemma update_editor_eq (vo : Option (List V → Bool)) (s : TupleState V)
    (hwf : wf vo s) :
    update_editor vo s =
      { editor_value := s.editor_value
        field_values := s.editor_value
        invalid := List.replicate s.invalid.length false } := by
  obtain ⟨hlen, hinv⟩ := hwf
  simp only [update_editor]
  cases vo with
  | none =>
    simp only [Option.isSome_none] at hinv
    have hnil : s.invalid = [] := List.eq_nil_of_length_eq_zero (by simpa using hinv)
    rw [update_fields_loop_fst _ _ 0 _ _ (by omega), update_fields_loop_snd_none]
    simp [hnil]
  | some valid =>
    simp only [Option.isSome_some, if_pos] at hinv
    rw [update_fields_loop_fst _ _ 0 _ _ (by omega),
        update_fields_loop_snd _ _ 0 _ _ (by omega)]
    simp only [List.take_zero, List.nil_append]
    rw [show s.editor_value.length = s.invalid.length by omega]

end UpdateLoop

section Invariants

variable {V : Type}

/-- A freshly constructed structure is well formed. -/
lemma init_state_wf (vo : Option (List V → Bool)) (object : List V) :
    wf vo (init_state vo object) := by
  cases vo <;> simp [wf, init_state]

/-- A freshly constructed structure satisfies the invariant: all flags are
clear and every field equals the owning tuple's value at its position. -/
lemma init_state_flag_inv (vo : Option (List V → Bool)) (object : List V) :
    flag_inv (init_state vo object) := by
  intro i _
  rfl

/-- `_field_changed` preserves well-formedness. -/
lemma field_changed_wf [DecidableEq V] (vo : Option (List V → Bool)) (s s2 : TupleState V)
    (i : Nat) (new : V) (hwf : wf vo s)
    (h : field_changed vo s i new = some s2) : wf vo s2 := by
  obtain ⟨hlen, hinv⟩ := hwf
  simp only [field_changed] at h
  cases hvi : s.editor_value[i]? with
  | none => rw [hvi] at h; exact absurd h (by simp)
  | some vi =>
    simp only [hvi] at h
    by_cases hnew : new = vi
    · rw [if_pos hnew] at h
      cases h
      constructor <;> simp [hlen, hinv]
    · rw [if_neg hnew] at h
      cases vo with
      | none =>
        cases h
        constructor <;> simp [hlen, hinv]
      | some valid =>
        simp only [] at h
        by_cases hv : valid (s.field_values.set i new) = true
        · rw [if_pos hv] at h
          cases h
          refine ⟨by simp, ?_⟩
          simp [clear_invalid_loop_length, hinv]
        · rw [if_neg (by simpa using hv)] at h
          cases h
          constructor <;> simp [hlen, hinv]

/-- `_field_changed` preserves the invariant `flag_inv`. -/
lemma field_changed_flag_inv [DecidableEq V] (vo : Option (List V → Bool)) (s s2 : TupleState V)
    (i : Nat) (new : V) (hwf : wf vo s) (hflag : flag_inv s)
    (h : field_changed vo s i new = some s2) : flag_inv s2 := by
  obtain ⟨hlen, hinv⟩ := hwf
  simp only [field_changed] at h
  cases hvi : s.editor_value[i]? with
  | none => rw [hvi] at h; exact absurd h (by simp)
  | some vi =>
    have hie : i < s.editor_value.length := by
      by_contra hge
      rw [List.getElem?_eq_none (by omega)] at hvi
      exact absurd hvi (by simp)
    simp only [hvi] at h
    by_cases hnew : new = vi
    · -- discarded event: only the field assignment itself remains
      rw [if_pos hnew] at h
      cases h
      intro j hj
      simp only at hj ⊢
      rw [List.getElem?_set]
      by_cases hij : i = j
      · subst hij
        rw [if_pos rfl, if_pos (by omega), hvi, hnew]
      · rw [if_neg hij]
        exact hflag j hj
    · rw [if_neg hnew] at h
      cases vo with
      | none =>
        cases h
        intro j hj
        simp only at hj ⊢
      | some valid =>
        simp only [] at h
        by_cases hv : valid (s.field_values.set i new) = true
        · rw [if_pos hv] at h
          cases h
          intro j hj
          simp only at hj ⊢
        · rw [if_neg (by simpa using hv)] at h
          cases h
          intro j hj
          simp only at hj ⊢
          simp only [Option.isSome_some, if_pos] at hinv
          rw [List.getElem?_set] at hj
          by_cases hij : i = j
          · subst hij
            rw [if_pos rfl, if_pos (by omega)] at hj
            exact absurd hj (by simp)
          · rw [if_neg hij] at hj
            rw [List.getElem?_set, if_neg hij]
            exact hflag j hj

/-- `update_editor` re-establishes both the well-formedness and the
invariant. -/
lemma update_editor_flag_inv (vo : Option (List V → Bool)) (s : TupleState V)
    (hwf : wf vo s) : flag_inv (update_editor vo s) := by
  rw [update_editor_eq vo s hwf]
  intro j _
  rfl

/-- With no validation function the fields never drift from the owning
value: `_field_changed` keeps `field_values = editor_value`. -/
lemma field_changed_none_sync [DecidableEq V] (s s2 : TupleState V) (i : Nat) (new : V)
    (hsync : s.field_values = s.editor_value)
    (h : field_changed none s i new = some s2) :
    s2.field_values = s2.editor_value := by
  simp only [field_changed] at h
  cases hvi : s.editor_value[i]? with
  | none => rw [hvi] at h; exact absurd h (by simp)
  | some vi =>
    simp only [hvi] at h
    by_cases hnew : new = vi
    · rw [if_pos hnew] at h
      cases h
      simp only
      rw [hsync, hnew]
      exact set_eq_of_getElem? _ _ _ hvi
    · rw [if_neg hnew] at h
      cases h
      rfl

end Invariants

section ClaimTheorems

/-- C1: For every tuple and every configured validation function, editing
field `i` to a value such that the recomputed candidate tuple fails
validation leaves the editor's owning tuple value unchanged and sets only
the invalid flag at position `i` to `true` (no other invalid flag is
changed).  The state is assumed well formed and satisfying the reachability
invariant `flag_inv` (established at construction by `init_state_flag_inv`
and preserved by `field_changed_flag_inv` and `update_editor_flag_inv`);
`hfire` is the trait system's firing condition, that the edit actually
changes the field's value. -/
theorem failing_edit_marks_only_edited_field {V : Type} [DecidableEq V]
    (valid : List V → Bool) (s : TupleState V) (i : Nat) (new : V)
    (hwf : wf (some valid) s) (hflag : flag_inv s)
    (hi : i < s.field_values.length)
    (hfire : s.field_values[i]? ≠ some new)
    (hfail : valid (s.field_values.set i new) = false) :
    ∃ s2, field_changed (some valid) s i new = some s2 ∧
      s2.editor_value = s.editor_value ∧
      s2.invalid = s.invalid.set i true ∧
      s2.invalid[i]? = some true := by
  obtain ⟨hlen, hinv⟩ := hwf
  simp only [Option.isSome_some, if_pos] at hinv
  have hie : i < s.editor_value.length := by omega
  have hii : i < s.invalid.length := by omega
  have hvi : s.editor_value[i]? = some (s.editor_value[i]) :=
    List.getElem?_eq_getElem hie
  by_cases hnew : new = s.editor_value[i]
  · -- the guard `new != value[index]` discards the event; the invalid flag
    -- at `i` must already be set, or the invariant would force the field to
    -- equal the owning value, contradicting the firing condition
    have hitrue : s.invalid[i]? = some true := by
      rw [List.getElem?_eq_getElem hii]
      by_cases hb : s.invalid[i] = false
      · exact absurd (by rw [hflag i (by rw [List.getElem?_eq_getElem hii, hb]),
          hvi, hnew]) hfire
      · simp only [Option.some.injEq]
        exact Bool.not_eq_false _ |>.mp hb
    refine ⟨{ s with field_values := s.field_values.set i new }, ?_, rfl, ?_, ?_⟩
    · simp only [field_changed, hvi, if_pos hnew]
    · exact (set_eq_of_getElem? _ _ _ hitrue).symm
    · exact hitrue
  · refine ⟨⟨s.editor_value, s.field_values.set i new, s.invalid.set i true⟩,
      ?_, rfl, rfl, ?_⟩
    · simp only [field_changed, hvi, if_neg hnew, hfail, Bool.false_eq_true,
        if_neg, ite_false]
    · rw [List.getElem?_set, if_pos rfl, if_pos hii]

/-- C1 witness. -/
theorem failing_edit_marks_only_edited_field_witness :
    ∃ s2, field_changed (some acceptsOneTwo) ⟨[1, 2], [1, 2], [false, false]⟩ 0 5 =
        some s2 ∧
      s2.editor_value = [1, 2] ∧
      s2.invalid = [false, false].set 0 true ∧
      s2.invalid[0]? = some true :=
  failing_edit_marks_only_edited_field acceptsOneTwo ⟨[1, 2], [1, 2], [false, false]⟩
    0 5 ⟨rfl, rfl⟩ (fun j h => rfl) (by decide) (by decide) (by decide)

/-- C2 counterexample: the claim fails as stated.  Starting from a freshly
constructed editor for the tuple `(1, 2)` with validation accepting exactly
`(1, 2)`, the failing edit `f0 := 5` marks `invalid0`; the subsequent edit
`f0 := 1` is a genuine field change whose recomputed candidate `(1, 2)`
passes validation, yet the guard `new != value[index]` discards it, so the
owning value is not re-committed and `invalid0` stays `true` instead of all
flags being cleared. -/
theorem passing_edit_counterexample :
    field_changed (some acceptsOneTwo) (init_state (some acceptsOneTwo) [1, 2]) 0 5 =
        some ⟨[1, 2], [5, 2], [true, false]⟩ ∧
      acceptsOneTwo (([5, 2] : List Nat).set 0 1) = true ∧
      ([5, 2] : List Nat)[0]? ≠ some 1 ∧
      field_changed (some acceptsOneTwo) ⟨[1, 2], [5, 2], [true, false]⟩ 0 1 =
        some ⟨[1, 2], [1, 2], [true, false]⟩ ∧
      (⟨[1, 2], [1, 2], [true, false]⟩ : TupleState Nat).invalid ≠ [false, false] := by
  refine ⟨by decide, by decide, by decide, by decide, by decide⟩

/-- C2 as amended: editing field `i` to a value that differs from the owning
tuple's current value at position `i` and whose recomputed candidate tuple
passes validation commits the candidate to the owning editor and sets every
invalid flag to `false`; an edit equal to the owning value at that position
is discarded by the guard and leaves the flags untouched. -/
theorem passing_changed_edit_commits {V : Type} [DecidableEq V]
    (valid : List V → Bool) (s : TupleState V) (i : Nat) (new : V)
    (hwf : wf (some valid) s)
    (hi : i < s.editor_value.length)
    (hguard : s.editor_value[i]? ≠ some new)
    (hpass : valid (s.field_values.set i new) = true) :
    field_changed (some valid) s i new =
      some ⟨s.field_values.set i new, s.field_values.set i new,
            List.replicate s.invalid.length false⟩ := by
  obtain ⟨hlen, hinv⟩ := hwf
  simp only [Option.isSome_some, if_pos] at hinv
  have hvi : s.editor_value[i]? = some (s.editor_value[i]) :=
    List.getElem?_eq_getElem hi
  have hne : new ≠ s.editor_value[i] := fun h => hguard (by rw [hvi, h])
  have hclear : clear_invalid_loop (s.field_values.set i new).length s.invalid =
      List.replicate s.invalid.length false := by
    rw [List.length_set, show s.field_values.length = s.invalid.length by omega]
    exact clear_invalid_loop_eq_replicate _ _ rfl
  simp only [field_changed, hvi, if_neg hne, hpass, if_pos, hclear]

/-- C2 witness (for the amended claim). -/
theorem passing_changed_edit_commits_witness :
    field_changed (some acceptsOneTwo) ⟨[7, 2], [7, 2], [false, false]⟩ 0 1 =
      some ⟨[1, 2], [1, 2], [false, false]⟩ :=
  passing_changed_edit_commits acceptsOneTwo ⟨[7, 2], [7, 2], [false, false]⟩ 0 1
    ⟨rfl, rfl⟩ (by decide) (by decide) (by decide)

/-- C3: when the owning tuple value is replaced from outside the editor,
`update_editor` overwrites every field value with the new tuple's value at
the same position and sets every invalid flag to `false`, regardless of the
prior field/flag state. -/
theorem external_update_overwrites_and_clears {V : Type}
    (vo : Option (List V → Bool)) (s : TupleState V) (hwf : wf vo s) :
    (update_editor vo s).editor_value = s.editor_value ∧
      (update_editor vo s).field_values = s.editor_value ∧
      (update_editor vo s).invalid = List.replicate s.invalid.length false := by
  rw [update_editor_eq vo s hwf]
  exact ⟨rfl, rfl, rfl⟩

/-- C3 witness. -/
theorem external_update_overwrites_and_clears_witness :
    (update_editor (some acceptsOneTwo) ⟨[3, 4], [5, 2], [true, true]⟩).editor_value
        = [3, 4] ∧
      (update_editor (some acceptsOneTwo) ⟨[3, 4], [5, 2], [true, true]⟩).field_values
        = [3, 4] ∧
      (update_editor (some acceptsOneTwo) ⟨[3, 4], [5, 2], [true, true]⟩).invalid
        = List.replicate 2 false :=
  external_update_overwrites_and_clears (some acceptsOneTwo)
    ⟨[3, 4], [5, 2], [true, true]⟩ ⟨rfl, rfl⟩

/-- C4: when no validation function is configured, every genuine field edit
commits the tuple recomputed from all current field values to the owning
editor unconditionally.  `hsync` is the validation-free reachability
invariant `field_values = editor_value` (established at construction and
preserved by `field_changed_none_sync` and `update_editor_eq`); under it the
guard always passes for a firing edit, so the commit is unconditional. -/
theorem no_validation_edit_commits {V : Type} [DecidableEq V]
    (s : TupleState V) (i : Nat) (new : V)
    (hsync : s.field_values = s.editor_value)
    (hi : i < s.field_values.length)
    (hfire : s.field_values[i]? ≠ some new) :
    field_changed none s i new =
      some ⟨s.field_values.set i new, s.field_values.set i new, s.invalid⟩ := by
  have hvi : s.editor_value[i]? = some (s.field_values[i]) := by
    rw [← hsync]
    exact List.getElem?_eq_getElem hi
  have hne : new ≠ s.field_values[i] := fun h =>
    hfire (by rw [List.getElem?_eq_getElem hi, h])
  simp only [field_changed, hvi, if_neg hne]

/-- C4 witness. -/
theorem no_validation_edit_commits_witness :
    field_changed (none : Option (List Nat → Bool)) ⟨[1, 2], [1, 2], []⟩ 1 7 =
      some ⟨[1, 7], [1, 7], []⟩ :=
  no_validation_edit_commits ⟨[1, 2], [1, 2], []⟩ 1 7 (by decide) (by decide)
    (by decide)

/-- C9: if the factory's validation function is not configured but the
edited tuple trait's handler defines a `validation` attribute, the structure
adopts the handler's validation function, and `_field_changed` consequently
runs with exactly that function, so validation-gated commit behaviour
applies without a factory-level validation function. -/
theorem handler_validation_adopted {V : Type} [DecidableEq V]
    (v : List V → Bool) :
    resolve_validation none (some (some v)) = some v ∧
      ∀ (s : TupleState V) (i : Nat) (new : V),
        field_changed (resolve_validation none (some (some v))) s i new =
          field_changed (some v) s i new :=
  ⟨rfl, fun _ _ _ => rfl⟩

/-- C10: a field-change event whose new value equals the owning tuple's
current value at that position is discarded by the guard
`if new != value[index]`: the owning value is not written, no invalid flag
changes, and the result does not depend on the validation function at all
(the statement is universally quantified over it), so validation is never
consulted.  Only the triggering trait assignment itself remains. -/
theorem idempotent_edit_no_effect {V : Type} [DecidableEq V]
    (vo : Option (List V → Bool)) (s : TupleState V) (i : Nat) (new : V)
    (h : s.editor_value[i]? = some new) :
    field_changed vo s i new =
      some { s with field_values := s.field_values.set i new } := by
  simp only [field_changed, h, if_pos]

/-- C10 witness. -/
theorem idempotent_edit_no_effect_witness :
    field_changed (some acceptsOneTwo) ⟨[1, 2], [5, 2], [true, false]⟩ 0 1 =
      some ⟨[1, 2], [1, 2], [true, false]⟩ :=
  idempotent_edit_no_effect (some acceptsOneTwo) ⟨[1, 2], [5, 2], [true, false]⟩
    0 1 (by decide)

end ClaimTheorems

section LayoutLemmas

lemma append_to_last_group_snoc (pre : List LayoutEntry) (g : List Nat) (i : Nat) :
    append_to_last_group (pre ++ [LayoutEntry.group g]) i =
      pre ++ [LayoutEntry.group (g ++ [i])] := by
  induction pre with
  | nil => rfl
  | cons e rest ih =>
    cases hr : rest ++ [LayoutEntry.group g] with
    | nil => exact absurd hr (by simp)
    | cons e2 tail =>
      calc append_to_last_group ((e :: rest) ++ [LayoutEntry.group g]) i
          = e :: append_to_last_group (rest ++ [LayoutEntry.group g]) i := by
            rw [List.cons_append, hr]
            rfl
        _ = e :: (rest ++ [LayoutEntry.group (g ++ [i])]) := by rw [ih]
        _ = (e :: rest) ++ [LayoutEntry.group (g ++ [i])] := by rw [List.cons_append]

lemma num_items_append (l1 l2 : List LayoutEntry) :
    num_items (l1 ++ l2) = num_items l1 + num_items l2 := by
  simp [num_items]

lemma num_items_single_item (i : Nat) : num_items [LayoutEntry.item i] = 1 := by
  simp [num_items, entry_items]

lemma num_items_single_group (g : List Nat) :
    num_items [LayoutEntry.group g] = g.length := by
  simp [num_items, entry_items]

/-- The single-column branch `cols <= 1` produces a flat list of items. -/
lemma build_content_single (cols : Int) (h : cols ≤ 1) (n : Nat) :
    num_items (build_content cols n) = n ∧ (build_content cols n).length = n := by
  induction n with
  | zero => exact ⟨rfl, rfl⟩
  | succ n ih =>
    rw [build_content, layout_step, if_pos h]
    constructor
    · rw [num_items_append, ih.1, num_items_single_item]
    · rw [List.length_append, ih.2, List.length_singleton]

/-- The multi-column branch: after `n` steps the content holds `n` items, has
`ceil(n / cols)` entries, and (once nonempty) ends in a group, so the alias
`group` in the loop denotes the last element of `content`. -/
lemma build_content_multi (cols : Int) (h2 : 2 ≤ cols) (n : Nat) :
    num_items (build_content cols n) = n ∧
      (build_content cols n).length = (n + cols.toNat - 1) / cols.toNat ∧
      (0 < n → ∃ pre g, build_content cols n = pre ++ [LayoutEntry.group g]) := by
  have hpos : 0 < cols.toNat := by omega
  have hnot : ¬cols ≤ 1 := by omega
  induction n with
  | zero =>
    refine ⟨rfl, ?_, fun h => absurd h (by omega)⟩
    simp only [build_content, List.length_nil]
    rw [Nat.div_eq_of_lt (by omega)]
  | succ n ih =>
    obtain ⟨ihn, ihl, ihg⟩ := ih
    have hsucc := Nat.succ_div (n - 1) cols.toNat
    rw [build_content, layout_step, if_neg hnot]
    by_cases hmod : n % cols.toNat = 0
    · -- a fresh group is opened and receives the item
      rw [if_pos hmod, append_to_last_group_snoc (build_content cols n) [] n]
      have hdvd : cols.toNat ∣ n := Nat.dvd_of_mod_eq_zero hmod
      refine ⟨?_, ?_, fun _ => ⟨build_content cols n, [n], rfl⟩⟩
      · rw [num_items_append, ihn, num_items_single_group]
        simp
      · rw [List.length_append, ihl, List.length_singleton]
        rcases Nat.eq_zero_or_pos n with hn | hn
        · subst hn
          have e2 : 0 + 1 + cols.toNat - 1 = cols.toNat := by omega
          rw [Nat.div_eq_of_lt (by omega), e2, Nat.div_self hpos]
        · rw [show n - 1 + 1 = n by omega] at hsucc
          have e1 : n + cols.toNat - 1 = (n - 1) + cols.toNat := by omega
          have e2 : n + 1 + cols.toNat - 1 = n + cols.toNat := by omega
          rw [e1, e2, Nat.add_div_right _ hpos, Nat.add_div_right _ hpos,
              hsucc, if_pos hdvd]
    · -- the item joins the group opened earlier in this row
      rw [if_neg hmod]
      have hn : 0 < n := by
        rcases Nat.eq_zero_or_pos n with h0 | h0
        · subst h0
          simp [Nat.zero_mod] at hmod
        · exact h0
      rw [show n - 1 + 1 = n by omega] at hsucc
      have hndvd : ¬cols.toNat ∣ n := by
        intro hd
        obtain ⟨q, rfl⟩ := hd
        exact hmod (Nat.mul_mod_right _ _)
      obtain ⟨pre, g, hg⟩ := ihg hn
      rw [hg, append_to_last_group_snoc]
      have h1 : num_items pre + g.length = n := by
        have := ihn
        rw [hg, num_items_append, num_items_single_group] at this
        exact this
      refine ⟨?_, ?_, fun _ => ⟨pre, g ++ [n], rfl⟩⟩
      · rw [num_items_append, num_items_single_group, List.length_append,
            List.length_singleton]
        omega
      · have hlen : (pre ++ [LayoutEntry.group (g ++ [n])]).length =
            (build_content cols n).length := by
          rw [hg]
          simp
        rw [hlen, ihl]
        have e1 : n + cols.toNat - 1 = (n - 1) + cols.toNat := by omega
        have e2 : n + 1 + cols.toNat - 1 = n + cols.toNat := by omega
        rw [e1, e2, Nat.add_div_right _ hpos, Nat.add_div_right _ hpos,
            hsucc, if_neg hndvd]

end LayoutLemmas

section ClaimTheoremsLayout

/-- C5: for every tuple of length `N` and every configured column count
`C >= 1`, the layout built at construction contains exactly `N` field items,
and the `content` list groups them into `ceil(N / C)` rows (with a single
column every item is its own row; with `C >= 2` the rows are the horizontal
groups). -/
theorem layout_counts (cols : Int) (n : Nat) (h : 1 ≤ cols) :
    num_items (build_content cols n) = n ∧
      (build_content cols n).length = (n + cols.toNat - 1) / cols.toNat := by
  by_cases h1 : cols ≤ 1
  · have hc : cols.toNat = 1 := by omega
    obtain ⟨hnum, hlen⟩ := build_content_single cols h1 n
    rw [hc]
    refine ⟨hnum, ?_⟩
    rw [hlen]
    omega
  · obtain ⟨hnum, hlen, _⟩ := build_content_multi cols (by omega) n
    exact ⟨hnum, hlen⟩

/-- C5 witness: seven fields in three columns give three rows of 3, 3 and 1
items. -/
theorem layout_counts_witness :
    num_items (build_content 3 7) = 7 ∧
      (build_content 3 7).length = (7 + (3 : Int).toNat - 1) / (3 : Int).toNat :=
  layout_counts 3 7 (by decide)

/-- C6: for every nonempty type list of length `L`, with `L` smaller than
the number of fields, field `i` receives the type at index `i % L` of the
list (the loop reads `type = types[i % len_types]`). -/
theorem type_assignment_cycles {T : Type} (types : List (Option T))
    (fields i : Nat) (h0 : 0 < types.length) (_hL : types.length < fields)
    (_hi : i < fields) :
    types[i % types.length]? = some (field_type types i) := by
  have hlt : i % types.length < types.length := Nat.mod_lt _ h0
  rw [List.getElem?_eq_getElem hlt, field_type, List.getD_eq_getElem _ _ hlt]

/-- C6 witness: with two types and five fields, field 3 receives the type at
index `3 % 2 = 1`. -/
theorem type_assignment_cycles_witness :
    ([some 10, some 20] : List (Option Nat))[3 % 2]? =
      some (field_type [some 10, some 20] 3) :=
  type_assignment_cycles [some 10, some 20] 5 3 (by decide) (by decide) (by decide)

/-- C7 counterexample: the claim's third fallback fails as stated.  When no
type list is configured (`types is None`) and the edited trait's handler is
not a `BaseTuple`, `types` remains `None`, the wrapping `types = [types]`
produces the one-element list `[None]` — not a single wildcard `Any` — and
since that list is nonempty the `len_types == 0` fallback to `[Any]` is
never taken.  (Instantiated with `T := Nat` and the wildcard modelled by
`0`.) -/
theorem type_fallback_counterexample :
    resolve_types TypesSpec.pynone (none : Option (List Nat)) 0 = [none] ∧
      resolve_types TypesSpec.pynone (none : Option (List Nat)) 0 ≠ [some 0] := by
  refine ⟨by decide, by decide⟩

/-- C7 as amended: field types fall back in order to the configured type
list, then to the tuple trait's declared per-position types; a non-list
configuration is wrapped as a one-element list, and an `empty` resolved list
falls back to a single wildcard (`Any`).  When neither a configuration nor
declared handler types exist, the resolved list is the one-element list
`[None]` (not the wildcard): the `Any` fallback applies only to an empty
list. -/
theorem type_resolution_fallback {T : Type} (anyT : T) :
    (∀ (ts : List T) (h : Option (List T)), ts ≠ [] →
        resolve_types (TypesSpec.seq ts) h anyT = ts.map some) ∧
      (∀ h : Option (List T),
        resolve_types (TypesSpec.seq ([] : List T)) h anyT = [some anyT]) ∧
      (∀ ts : List T, ts ≠ [] →
        resolve_types TypesSpec.pynone (some ts) anyT = ts.map some) ∧
      (resolve_types TypesSpec.pynone (some ([] : List T)) anyT = [some anyT]) ∧
      (∀ (t : T) (h : Option (List T)),
        resolve_types (TypesSpec.atom t) h anyT = [some t]) ∧
      (resolve_types TypesSpec.pynone (none : Option (List T)) anyT = [none]) := by
  refine ⟨fun ts h hne => ?_, fun h => rfl, fun ts hne => ?_, rfl, fun t h => rfl, rfl⟩
  · simp [resolve_types, hne]
  · simp [resolve_types, hne]

/-- C7 witness (for the amended claim): a configured nonempty list is used
as is. -/
theorem type_resolution_fallback_witness :
    resolve_types (TypesSpec.seq [5, 6]) (some [7]) (0 : Nat) = [some 5, some 6] :=
  (type_resolution_fallback (0 : Nat)).1 [5, 6] (some [7]) (by decide)

/-- C8: the effective `auto_set`/`enter_set` flag of a field equals the
per-type metadata when the field's type defines it (it is a `TraitType`
whose metadata is not `None`) and the factory's configured default
otherwise; and an invalid flag trait is added for the position if and only
if a validation function is configured. -/
theorem field_flag_resolution {F : Type} (t : FieldType)
    (fa fe : Bool) (vo : Option F) :
    (∀ b : Bool, t.is_trait_type = true → t.auto_set = some b →
        (make_field t fa fe vo).auto_set = b) ∧
      (t.is_trait_type = false ∨ t.auto_set = none →
        (make_field t fa fe vo).auto_set = fa) ∧
      (∀ b : Bool, t.is_trait_type = true → t.enter_set = some b →
        (make_field t fa fe vo).enter_set = b) ∧
      (t.is_trait_type = false ∨ t.enter_set = none →
        (make_field t fa fe vo).enter_set = fe) ∧
      ((make_field t fa fe vo).has_invalid = true ↔ vo.isSome = true) := by
  refine ⟨fun b ht ha => ?_, fun h => ?_, fun b ht he => ?_, fun h => ?_, Iff.rfl⟩
  · simp [make_field, ht, ha]
  · rcases h with h | h <;> simp [make_field, h]
  · simp [make_field, ht, he]
  · rcases h with h | h <;> simp [make_field, h]

/-- C8 witness: a trait type with explicit `auto_set=False` overrides the
factory default `True`; unset `enter_set` falls back to the factory default;
the invalid flag is present exactly when validation is configured. -/
theorem field_flag_resolution_witness :
    (make_field ⟨true, some false, none⟩ true true (some acceptsOneTwo)).auto_set
        = false ∧
      (make_field ⟨true, some false, none⟩ true true (some acceptsOneTwo)).enter_set
        = true ∧
      ((make_field ⟨true, some false, none⟩ true true
          (some acceptsOneTwo)).has_invalid = true ↔
        (some acceptsOneTwo).isSome = true) :=
  ⟨(field_flag_resolution ⟨true, some false, none⟩ true true
      (some acceptsOneTwo)).1 false rfl rfl,
    (field_flag_resolution ⟨true, some false, none⟩ true true
      (some acceptsOneTwo)).2.2.2.1 (Or.inr rfl),
    (field_flag_resolution ⟨true, some false, none⟩ true true
      (some acceptsOneTwo)).2.2.2.2⟩

end ClaimTheoremsLayout

end TupleEditor
